import Mathlib

/-
Verification development for the takealot price-scraper service
(src/app.js).  The embedding below transcribes the price-extraction
pipeline: the currency-pattern matcher shared by all three extraction
strategies, the token parser, the strategy cascade with its confidence
threshold, the statistics function, the fatal control flow of one request
(browser launch, page creation, try/finally), the route guard, and the
lazy-load scroll loop.  Machine floats of the source are modelled as
rationals; prices carry at most two fractional digits, so the arithmetic
used by the program is exact in this model.
-/

namespace EasyTrade

/-- Character class of the JavaScript whitespace escape used by the currency
pattern and by string trimming, identified by code point. -/
def isJsWS (c : Char) : Bool :=
  c.toNat = 9 || c.toNat = 10 || c.toNat = 11 || c.toNat = 12 || c.toNat = 13 ||
  c.toNat = 32 || c.toNat = 160 || c.toNat = 0x1680 ||
  (0x2000 ≤ c.toNat && c.toNat ≤ 0x200A) ||
  c.toNat = 0x2028 || c.toNat = 0x2029 || c.toNat = 0x202F || c.toNat = 0x205F ||
  c.toNat = 0x3000 || c.toNat = 0xFEFF

/-- Greedy reading of the optional single whitespace character that may follow
the currency marker; returns the consumed prefix and the rest. -/
def dropOneWS : List Char → List Char × List Char
  | c :: r => if isJsWS c then ([c], r) else ([], c :: r)
  | [] => ([], [])

/-- Greedy reading of one to three leading decimal digits, the integer head of
the currency pattern; fails when the first character is not a digit. -/
def takeUpTo3Digits : List Char → Option (List Char × List Char)
  | [] => none
  | a :: r =>
    if a.isDigit then
      match r with
      | [] => some ([a], [])
      | b :: r2 =>
        if b.isDigit then
          match r2 with
          | [] => some ([a, b], [])
          | c :: r3 => if c.isDigit then some ([a, b, c], r3) else some ([a, b], c :: r3)
        else some ([a], b :: r2)
    else none

/-- Greedy reading of the thousands groups of the currency pattern: zero or
more occurrences of a comma followed by exactly three digits. -/
def takeGroups : List Char → List Char × List Char
  | ',' :: a :: b :: c :: r =>
    if a.isDigit && b.isDigit && c.isDigit then
      let (gs, r2) := takeGroups r
      (',' :: a :: b :: c :: gs, r2)
    else ([], ',' :: a :: b :: c :: r)
  | l => ([], l)

/-- Greedy reading of the optional fractional part of the currency pattern: a
dot followed by one or two digits. -/
def takeFrac : List Char → List Char × List Char
  | '.' :: a :: r =>
    if a.isDigit then
      match r with
      | [] => (['.', a], [])
      | b :: r2 => if b.isDigit then (['.', a, b], r2) else (['.', a], b :: r2)
    else ([], '.' :: a :: r)
  | l => ([], l)

/-- Attempt of the currency pattern right after its literal marker: optional
whitespace, one to three digits, thousands groups, optional fraction — the
part of the regular expression of src/app.js lines 201, 239 and 284 that
follows the marker.  Returns the captured group (everything except marker and
whitespace, exactly the first capture group of the source pattern) together
with the unconsumed suffix.  The greedy one-pass reading is faithful because
every later fragment of the pattern is optional, so the engine never
backtracks into an earlier fragment. -/
def matchAfterR (l : List Char) : Option (List Char × List Char) :=
  let (_, l1) := dropOneWS l
  match takeUpTo3Digits l1 with
  | none => none
  | some (ds, r1) =>
    let (gs, r2) := takeGroups r1
    let (fs, r3) := takeFrac r2
    some (ds ++ gs ++ fs, r3)

/-- Attempt of the full currency pattern at the head of the text: the literal
marker followed by the rest of the pattern. -/
def matchPriceAt : List Char → Option (List Char × List Char)
  | 'R' :: rest => matchAfterR rest
  | _ => none

/-- First match of the currency pattern in a text, scanning left to right:
the model of the non-global match call of the structured scan
(src/app.js line 201).  Returns the captured group. -/
def firstMatch : List Char → Option (List Char)
  | [] => none
  | c :: rest =>
    match matchPriceAt (c :: rest) with
    | some (g, _) => some g
    | none => firstMatch rest

/-- Worker of the global search: scan left to right and resume right after
the end of each full match.  The fuel only serves the termination argument:
every match consumes at least two characters, so fuel equal to the text
length never runs out. -/
def allMatchesAux : Nat → List Char → List (List Char)
  | 0, _ => []
  | _ + 1, [] => []
  | fuel + 1, c :: rest =>
    match matchPriceAt (c :: rest) with
    | some (g, r2) => g :: allMatchesAux fuel r2
    | none => allMatchesAux fuel rest

/-- All matches of the currency pattern in a text: the model of the global
match calls of the markup scan (src/app.js line 243) and the OCR scan
(src/app.js line 284).  Returns the captured groups in text order. -/
def allMatches (l : List Char) : List (List Char) := allMatchesAux l.length l

/-- Greedy run of decimal digits. -/
def takeDigits : List Char → List Char × List Char
  | [] => ([], [])
  | c :: r =>
    if c.isDigit then
      let (ds, r2) := takeDigits r
      (c :: ds, r2)
    else ([], c :: r)

/-- Numeric value of a digit string, most significant digit first. -/
def digitsVal (ds : List Char) : ℕ := ds.foldl (fun a c => 10 * a + (c.toNat - 48)) 0

/-- Sign step of the float parser: an optional leading minus or plus;
returns the negative flag and the rest. -/
def jsParseSign (l : List Char) : Bool × List Char :=
  match l with
  | '-' :: r => (true, r)
  | '+' :: r => (false, r)
  | _ => (false, l)

/-- Fraction step of the float parser: the digits right after a leading dot,
empty otherwise. -/
def jsParseFracDigits (l : List Char) : List Char :=
  match l with
  | '.' :: r => (takeDigits r).1
  | _ => []

/-- Digit-level reading of the JavaScript float parser: skip leading
whitespace, read an optional sign, then digits with an optional dot-separated
fractional part, ignoring any trailing garbage.  Returns the sign flag (true
for negative), the integer digits and the fraction digits, or none when no
digit was read — the not-a-number outcome. -/
def jsParseParts (l : List Char) : Option (Bool × List Char × List Char) :=
  let sl := jsParseSign (l.dropWhile isJsWS)
  let (ids, l2) := takeDigits sl.2
  let fds := jsParseFracDigits l2
  if ids.isEmpty && fds.isEmpty then none else some (sl.1, ids, fds)

/-- Numeric value of a parsed sign, integer-digit and fraction-digit triple. -/
def partsVal (sign : Bool) (ids fds : List Char) : ℚ :=
  (if sign then (-1 : ℚ) else 1) * ((digitsVal ids : ℚ) + (digitsVal fds : ℚ) / 10 ^ fds.length)

/-- Model of the JavaScript float parser on the inputs arising in this
program (a stripped regex capture never contains an exponent or infinity
form): the value of the digit-level reading, or none — the not-a-number
outcome — when no digit was read. -/
def jsParseFloat (l : List Char) : Option ℚ :=
  (jsParseParts l).map (fun p => partsVal p.1 p.2.1 p.2.2)

/-- Removal of comma thousands separators: the global comma replacement
applied to each capture before parsing. -/
def stripCommas (l : List Char) : List Char := l.filter (· != ',')

/-- Conversion of one raw capture to a price value (src/app.js lines 204-207,
244-247 and 287-290): strip the comma separators, parse as a float, and keep
the value only when it is a number greater than zero; otherwise the token is
dropped. -/
def normalize (l : List Char) : Option ℚ :=
  match jsParseFloat (stripCommas l) with
  | none => none
  | some v => if 0 < v then some v else none

/-- Model of the JavaScript string trim: whitespace removed from both ends. -/
def jsTrim (l : List Char) : List Char :=
  ((l.dropWhile isJsWS).reverse.dropWhile isJsWS).reverse

/-- Structured element scan (src/app.js lines 193-228): for each matched
element text, trim it, take the first match of the currency pattern and keep
its parsed value when positive — at most one price per element. -/
def getPricesFromElements (texts : List String) : List ℚ :=
  texts.filterMap (fun t => (firstMatch (jsTrim t.toList)).bind normalize)

/-- Markup scan (src/app.js lines 238-248): every match of the currency
pattern over the whole raw markup, parsed and kept when positive. -/
def pricesFromHTML (html : String) : List ℚ :=
  (allMatches html.toList).filterMap normalize

/-- OCR scan parse step (src/app.js lines 284-290): every match of the
currency pattern over the recognized text, mapped to parsed values and then
filtered to the numeric positive ones. -/
def pricesFromOCR (text : String) : List ℚ :=
  ((allMatches text.toList).map (fun g => jsParseFloat (stripCommas g))).filterMap
    (fun o => match o with
      | some v => if 0 < v then some v else none
      | none => none)

/-- The minimum-confidence threshold of five matches
(src/app.js lines 235 and 259). -/
def priceThreshold : Nat := 5

/-- Adopted value list of one request together with a record of which of the
two more expensive strategies were invoked. -/
structure PipelineResult where
  values : List ℚ
  markupInvoked : Bool
  ocrInvoked : Bool
  deriving DecidableEq, Repr

/-- The strategy cascade of getScreenshotAndExtractPrices (src/app.js lines
193-298): structured scan first; markup scan only when the structured yield is
under the threshold, replacing the current list only on a strictly larger
yield; OCR only when the adopted list is still under the threshold after
that, again replacing only on a strictly larger yield. -/
def runPipeline (elementTexts : List String) (html ocrText : String) : PipelineResult :=
  let domPrices := getPricesFromElements elementTexts
  if domPrices.length < priceThreshold then
    let htmlPrices := pricesFromHTML html
    let p1 := if htmlPrices.length > domPrices.length then htmlPrices else domPrices
    if p1.length < priceThreshold then
      let ocrPrices := pricesFromOCR ocrText
      let p2 := if ocrPrices.length > p1.length then ocrPrices else p1
      ⟨p2, true, true⟩
    else ⟨p1, true, false⟩
  else ⟨domPrices, false, false⟩

/-- The statistics record returned per request. -/
structure PriceStats where
  average : ℚ
  median : ℚ
  min : ℚ
  max : ℚ
  count : Nat
  deriving DecidableEq, Repr

/-- Rounding to two decimal places: formatting with two fraction digits and
reparsing, which rounds to the nearest hundredth with ties toward the larger
value. -/
def round2 (q : ℚ) : ℚ := (round (q * 100) : ℤ) / 100

/-- Transcription of calculatePriceStats (src/app.js lines 323-354): zero
stats on the empty list; otherwise sort ascending, take the extrema at the
two ends unrounded, the mean of the running sum rounded to two decimals, and
the middle element (or the mean of the two middle elements) rounded to two
decimals. -/
def calculatePriceStats (prices : List ℚ) : PriceStats :=
  if prices.length = 0 then ⟨0, 0, 0, 0, 0⟩
  else
    let sortedPrices := prices.insertionSort (· ≤ ·)
    let sum := prices.foldl (· + ·) 0
    let average : ℚ := sum / prices.length
    let mid := sortedPrices.length / 2
    let median : ℚ :=
      if sortedPrices.length % 2 = 0 then
        (sortedPrices.getD (mid - 1) 0 + sortedPrices.getD mid 0) / 2
      else sortedPrices.getD mid 0
    ⟨round2 average, round2 median, sortedPrices.getD 0 0,
      sortedPrices.getD (sortedPrices.length - 1) 0, prices.length⟩

/-- Observable context-lifecycle events of one request. -/
inductive BrowserEvent
  | browserLaunched
  | pageCreated
  | browserClosed
  deriving DecidableEq, Repr

/-- The fallible stages of getScreenshotAndExtractPrices whose failure is
fatal to the request.  A navigation timeout is absent because the code
catches it and continues (src/app.js lines 138-143), as are the consent
banner and the product-grid probes (lines 152-180). -/
inductive ReqError
  | launchFailed
  | newPageFailed
  | setupFailed
  | evalFailed
  | contentFailed
  | screenshotFailed
  | ocrFailed
  deriving DecidableEq, Repr

/-- Environment of one request: which fallible stages succeed, and the page
content each extraction strategy sees. -/
structure Env where
  launchOk : Bool
  newPageOk : Bool
  setupOk : Bool
  navOk : Bool
  evalOk : Bool
  contentOk : Bool
  screenshotOk : Bool
  ocrOk : Bool
  elementTexts : List String
  html : String
  ocrText : String
  deriving Repr

/-- The body of the try block of getScreenshotAndExtractPrices (src/app.js
lines 112-312): page setup, navigation whose timeout is swallowed regardless
of navOk, and the strategy cascade with the fallible stages of each strategy
in source order — the markup fetch can only fail when the markup scan is
reached, and the screenshot and recognition only when the OCR fallback is
reached. -/
def requestBody (env : Env) : Except ReqError (List ℚ) :=
  if !env.setupOk then .error .setupFailed
  else if !env.evalOk then .error .evalFailed
  else
    let pr := runPipeline env.elementTexts env.html env.ocrText
    if pr.markupInvoked && !env.contentOk then .error .contentFailed
    else if pr.ocrInvoked && !env.screenshotOk then .error .screenshotFailed
    else if pr.ocrInvoked && !env.ocrOk then .error .ocrFailed
    else .ok pr.values

/-- The per-request payload returned on success (src/app.js lines 303-312). -/
structure SearchResult where
  searchTerm : String
  totalPricesFound : Nat
  prices : List ℚ
  stats : PriceStats
  deriving DecidableEq, Repr

/-- Transcription of getScreenshotAndExtractPrices (src/app.js lines 91-320)
at the level of fatal control flow: the launch comes first and its failure
aborts with no events; the newPage call sits OUTSIDE the try block
(line 109), so its failure aborts after the launch event without a close
event; the try body then runs, and success and failure both reach the
finally clause that closes the browser exactly once. -/
def runRequest (env : Env) (searchTerm : String) :
    Except ReqError SearchResult × List BrowserEvent :=
  if !env.launchOk then (.error .launchFailed, [])
  else if !env.newPageOk then (.error .newPageFailed, [.browserLaunched])
  else
    match requestBody env with
    | .error e => (.error e, [.browserLaunched, .pageCreated, .browserClosed])
    | .ok prices =>
      (.ok ⟨searchTerm, prices.length, prices, calculatePriceStats prices⟩,
        [.browserLaunched, .pageCreated, .browserClosed])

/-- HTTP-level outcome of one request. -/
inductive Response
  | ok (result : SearchResult)
  | badRequest (msg : String)
  | serverError (msg : String)
  deriving DecidableEq, Repr

/-- Transcription of the route handler (src/app.js lines 50-67): a missing or
empty search term is rejected with status 400 before anything else runs; an
error thrown by the scrape surfaces as status 500; otherwise the payload is
returned as JSON. -/
def handleRequest (search : Option String) (env : Env) : Response × List BrowserEvent :=
  match search with
  | none => (.badRequest "Search term is required", [])
  | some s =>
    if s = "" then (.badRequest "Search term is required", [])
    else
      match runRequest env s with
      | (.ok r, events) => (.ok r, events)
      | (.error _, events) => (.serverError "Failed to process request", events)

/-- The fixed scroll step of autoScroll (src/app.js line 75). -/
def scrollDistance : ℤ := 400

/-- Transcription of the interval callback loop of autoScroll (src/app.js
lines 72-86): each tick scrolls by the fixed distance, adds it to the
accumulated total, and stops once the total reaches the document height minus
the viewport height as measured at that tick.  The document height is a
function of the tick because lazy loading may grow the page while scrolling.
The fuel bounds the number of ticks modelled; the termination theorem
produces a sufficient fuel.  Returns the stopping tick and the accumulated
scroll amount. -/
def autoScrollRun (scrollHeight : ℕ → ℤ) (innerHeight : ℤ) :
    ℕ → ℕ → ℤ → Option (ℕ × ℤ)
  | 0, _, _ => none
  | fuel + 1, t, total =>
    let total2 := total + scrollDistance
    if scrollHeight t - innerHeight ≤ total2 then some (t, total2)
    else autoScrollRun scrollHeight innerHeight fuel (t + 1) total2

/-- Grammar of the thousands groups as the specification words them: zero or
more occurrences of a comma followed by exactly three digits. -/
inductive IsGroups : List Char → Prop
  | nil : IsGroups []
  | cons (a b c : Char) (rest : List Char) :
      a.isDigit → b.isDigit → c.isDigit → IsGroups rest →
      IsGroups (',' :: a :: b :: c :: rest)

/-- Modelled from the spec: the currency pattern as the specification
describes it — a literal currency marker, optional whitespace, an integer
part of one to three leading digits with optional thousands grouping by
commas, and an optional fractional part of one or two digits.  Used only to
compare the matcher transcribed from the source against the specification
text. -/
def PricePattern (s : List Char) : Prop :=
  ∃ w ds gs fs,
    (w = [] ∨ ∃ c, isJsWS c ∧ w = [c]) ∧
    (∀ c ∈ ds, c.isDigit) ∧ 1 ≤ ds.length ∧ ds.length ≤ 3 ∧
    IsGroups gs ∧
    (fs = [] ∨ ∃ es, fs = '.' :: es ∧ (∀ c ∈ es, c.isDigit) ∧
      1 ≤ es.length ∧ es.length ≤ 2) ∧
    s = 'R' :: (w ++ ds ++ gs ++ fs)

/-- Evaluation helper: a capture whose digit-level parse is known evaluates
under the token parser to its positive value. -/
theorem normalize_eval {l : List Char} {sign : Bool} {ids fds : List Char} {v : ℚ}
    (h : jsParseParts (stripCommas l) = some (sign, ids, fds))
    (hv : partsVal sign ids fds = v) (hpos : 0 < v) :
    normalize l = some v := by
  rw [normalize, jsParseFloat, h]
  simp [hv, hpos]

/-- Evaluation helper: an unsigned integer-only capture evaluates to its
digit value when that value is positive. -/
theorem normalize_int_eval {l ids : List Char} {n : ℕ} {v : ℚ}
    (h : jsParseParts (stripCommas l) = some (false, ids, []))
    (hd : digitsVal ids = n) (hv : (n : ℚ) = v) (hn : 0 < v) :
    normalize l = some v := by
  refine normalize_eval h ?_ hn
  rw [partsVal, hd]
  have hd0 : digitsVal ([] : List Char) = 0 := by decide
  rw [hd0]
  simpa using hv

/-- Evaluation helper: an unsigned capture with a fractional part evaluates
to its combined digit value when that value is positive. -/
theorem normalize_frac_eval {l ids fds : List Char} {a b : ℕ} {v : ℚ}
    (h : jsParseParts (stripCommas l) = some (false, ids, fds))
    (hi : digitsVal ids = a) (hf : digitsVal fds = b)
    (hv : (a : ℚ) + (b : ℚ) / 10 ^ fds.length = v) (hpos : 0 < v) :
    normalize l = some v := by
  refine normalize_eval h ?_ hpos
  rw [partsVal, hi, hf]
  simpa using hv

/-- C1: if the structured element scan yields at least the confidence
threshold of five price tokens, neither the markup scan nor the OCR strategy
is invoked; and the OCR strategy is attempted only when the structured scan
and the markup scan each yield fewer than five tokens. -/
theorem C1_strategy_cascade (elementTexts : List String) (html ocrText : String) :
    (priceThreshold ≤ (getPricesFromElements elementTexts).length →
      (runPipeline elementTexts html ocrText).markupInvoked = false ∧
      (runPipeline elementTexts html ocrText).ocrInvoked = false) ∧
    ((runPipeline elementTexts html ocrText).ocrInvoked = true →
      (getPricesFromElements elementTexts).length < priceThreshold ∧
      (pricesFromHTML html).length < priceThreshold) := by
  constructor
  · intro h
    have hnot : ¬ (getPricesFromElements elementTexts).length < priceThreshold := by omega
    simp [runPipeline, hnot]
  · intro h
    by_cases h1 : (getPricesFromElements elementTexts).length < priceThreshold
    · refine ⟨h1, ?_⟩
      by_cases h2 : (pricesFromHTML html).length > (getPricesFromElements elementTexts).length
      · simp only [runPipeline, if_pos h1, if_pos h2] at h
        split at h
        · next h3 => exact h3
        · simp at h
      · omega
    · simp [runPipeline, h1] at h

/-- Witness for C1 at a concrete input with five structured prices. -/
theorem C1_strategy_cascade_witness :
    (runPipeline ["R1", "R2", "R3", "R4", "R5"] "" "").markupInvoked = false := by
  have t1 : normalize ['1'] = some 1 :=
    @normalize_int_eval ['1'] ['1'] 1 1 (by decide) (by decide) (by norm_num) (by norm_num)
  have t2 : normalize ['2'] = some 2 :=
    @normalize_int_eval ['2'] ['2'] 2 2 (by decide) (by decide) (by norm_num) (by norm_num)
  have t3 : normalize ['3'] = some 3 :=
    @normalize_int_eval ['3'] ['3'] 3 3 (by decide) (by decide) (by norm_num) (by norm_num)
  have t4 : normalize ['4'] = some 4 :=
    @normalize_int_eval ['4'] ['4'] 4 4 (by decide) (by decide) (by norm_num) (by norm_num)
  have t5 : normalize ['5'] = some 5 :=
    @normalize_int_eval ['5'] ['5'] 5 5 (by decide) (by decide) (by norm_num) (by norm_num)
  have f1 : firstMatch (jsTrim ['R', '1']) = some ['1'] := by decide
  have f2 : firstMatch (jsTrim ['R', '2']) = some ['2'] := by decide
  have f3 : firstMatch (jsTrim ['R', '3']) = some ['3'] := by decide
  have f4 : firstMatch (jsTrim ['R', '4']) = some ['4'] := by decide
  have f5 : firstMatch (jsTrim ['R', '5']) = some ['5'] := by decide
  have hD : getPricesFromElements ["R1", "R2", "R3", "R4", "R5"] = [1, 2, 3, 4, 5] := by
    simp [getPricesFromElements, List.filterMap_cons, f1, f2, f3, f4, f5,
      t1, t2, t3, t4, t5]
  exact ((C1_strategy_cascade ["R1", "R2", "R3", "R4", "R5"] "" "").1
    (by rw [hD]; norm_num [priceThreshold])).1

/-- C2: when no strategy yield meets the threshold of five, the adopted list
is the value list of the strategy with the strictly highest yield among the
three attempted strategies (even when every yield is zero); and a request
with zero prices found is returned as a normal, non-error result with a zero
count. -/
theorem C2_highest_yield :
    (∀ (elementTexts : List String) (html ocrText : String),
      (getPricesFromElements elementTexts).length < priceThreshold →
      (pricesFromHTML html).length < priceThreshold →
      (pricesFromOCR ocrText).length < priceThreshold →
      (((pricesFromHTML html).length < (getPricesFromElements elementTexts).length ∧
        (pricesFromOCR ocrText).length < (getPricesFromElements elementTexts).length →
        (runPipeline elementTexts html ocrText).values = getPricesFromElements elementTexts) ∧
       ((getPricesFromElements elementTexts).length < (pricesFromHTML html).length ∧
        (pricesFromOCR ocrText).length < (pricesFromHTML html).length →
        (runPipeline elementTexts html ocrText).values = pricesFromHTML html) ∧
       ((getPricesFromElements elementTexts).length < (pricesFromOCR ocrText).length ∧
        (pricesFromHTML html).length < (pricesFromOCR ocrText).length →
        (runPipeline elementTexts html ocrText).values = pricesFromOCR ocrText))) ∧
    (∀ (env : Env) (s : String), s ≠ "" →
      env.launchOk = true → env.newPageOk = true → env.setupOk = true →
      env.evalOk = true → env.contentOk = true → env.screenshotOk = true →
      env.ocrOk = true →
      (runPipeline env.elementTexts env.html env.ocrText).values = [] →
      handleRequest (some s) env =
        (Response.ok ⟨s, 0, [], ⟨0, 0, 0, 0, 0⟩⟩,
         [.browserLaunched, .pageCreated, .browserClosed])) := by
  constructor
  · intro elementTexts html ocrText h1 h2 h3
    refine ⟨?_, ?_, ?_⟩
    · rintro ⟨hh, ho⟩
      have hng : ¬ (pricesFromHTML html).length > (getPricesFromElements elementTexts).length := by
        omega
      simp only [runPipeline, if_pos h1, if_neg hng, if_pos h1]
      have hno : ¬ (pricesFromOCR ocrText).length > (getPricesFromElements elementTexts).length := by
        omega
      simp [hno]
    · rintro ⟨hd, ho⟩
      have hg : (pricesFromHTML html).length > (getPricesFromElements elementTexts).length := hd
      simp only [runPipeline, if_pos h1, if_pos hg, if_pos h2]
      have hno : ¬ (pricesFromOCR ocrText).length > (pricesFromHTML html).length := by omega
      simp [hno]
    · rintro ⟨hd, hh⟩
      by_cases hg : (pricesFromHTML html).length > (getPricesFromElements elementTexts).length
      · simp only [runPipeline, if_pos h1, if_pos hg, if_pos h2]
        have ho : (pricesFromOCR ocrText).length > (pricesFromHTML html).length := hh
        simp [ho]
      · simp only [runPipeline, if_pos h1, if_neg hg, if_pos h1]
        have ho : (pricesFromOCR ocrText).length > (getPricesFromElements elementTexts).length := hd
        simp [ho]
  · intro env s hs h1 h2 h3 h4 h5 h6 h7 hv
    have hbody : requestBody env = .ok [] := by
      simp [requestBody, h3, h4, h5, h6, h7, hv]
    simp [handleRequest, hs, runRequest, h1, h2, hbody, calculatePriceStats]

/-- Witness for C2 at a concrete input: the markup yield of one beats the
structured and OCR yields of zero, all below the threshold; and a request
that finds nothing at all is a normal success with count zero. -/
theorem C2_highest_yield_witness :
    (runPipeline [] "R1" "").values = pricesFromHTML "R1" ∧
    handleRequest (some "phone")
        ⟨true, true, true, true, true, true, true, true, [], "", ""⟩ =
      (Response.ok ⟨"phone", 0, [], ⟨0, 0, 0, 0, 0⟩⟩,
       [.browserLaunched, .pageCreated, .browserClosed]) := by
  have t1 : normalize ['1'] = some 1 :=
    @normalize_int_eval ['1'] ['1'] 1 1 (by decide) (by decide) (by norm_num) (by norm_num)
  have hH : pricesFromHTML "R1" = [1] := by
    have ha : allMatches "R1".toList = [['1']] := by decide
    rw [pricesFromHTML, ha]
    simp [List.filterMap_cons, t1]
  constructor
  · exact (C2_highest_yield.1 [] "R1" "" (by decide) (by rw [hH]; decide)
      (by decide)).2.1 ⟨by rw [hH]; decide, by rw [hH]; decide⟩
  · exact C2_highest_yield.2 ⟨true, true, true, true, true, true, true, true, [], "", ""⟩
      "phone" (by decide) rfl rfl rfl rfl rfl rfl rfl (by decide)

/-- C10: a later, more expensive strategy replaces the currently adopted list
only on a strictly greater count — when the markup scan ties the structured
yield (and OCR does not beat it), and when the OCR scan ties the adopted
markup yield, the earlier, cheaper strategy's values remain adopted,
including a tie at zero. -/
theorem C10_tie_keeps_earlier (elementTexts : List String) (html ocrText : String) :
    ((getPricesFromElements elementTexts).length < priceThreshold →
     (pricesFromHTML html).length = (getPricesFromElements elementTexts).length →
     (pricesFromOCR ocrText).length ≤ (getPricesFromElements elementTexts).length →
     (runPipeline elementTexts html ocrText).values = getPricesFromElements elementTexts) ∧
    ((getPricesFromElements elementTexts).length < priceThreshold →
     (getPricesFromElements elementTexts).length < (pricesFromHTML html).length →
     (pricesFromHTML html).length < priceThreshold →
     (pricesFromOCR ocrText).length = (pricesFromHTML html).length →
     (runPipeline elementTexts html ocrText).values = pricesFromHTML html) := by
  constructor
  · intro h1 hh ho
    have hng : ¬ (pricesFromHTML html).length > (getPricesFromElements elementTexts).length := by
      omega
    have hno : ¬ (pricesFromOCR ocrText).length > (getPricesFromElements elementTexts).length := by
      omega
    simp [runPipeline, if_pos h1, hng, h1, hno]
  · intro h1 hd h2 ho
    have hg : (pricesFromHTML html).length > (getPricesFromElements elementTexts).length := hd
    have hno : ¬ (pricesFromOCR ocrText).length > (pricesFromHTML html).length := by omega
    simp [runPipeline, if_pos h1, hg, h2, hno]

/-- Witness for C10 at the all-empty input: every strategy yields zero and
the structured scan's empty list stays adopted. -/
theorem C10_tie_keeps_earlier_witness :
    (runPipeline [] "" "").values = getPricesFromElements [] :=
  (C10_tie_keeps_earlier [] "" "").1 (by decide) (by decide) (by decide)

/-- C8: a request whose query term is absent or empty is rejected
immediately with the invalid-input error, and no rendering context is ever
opened — the context-lifecycle event trace of such a request is empty. -/
theorem C8_invalid_input (search : Option String) (env : Env)
    (h : search = none ∨ search = some "") :
    handleRequest search env = (.badRequest "Search term is required", []) := by
  rcases h with rfl | rfl
  · rfl
  · simp [handleRequest]

/-- Witness for C8 at the absent and the empty query term. -/
theorem C8_invalid_input_witness :
    handleRequest none
        ⟨true, true, true, true, true, true, true, true, [], "", ""⟩ =
      (.badRequest "Search term is required", []) :=
  C8_invalid_input none _ (Or.inl rfl)

/-- Exactly one close event on every request whose launch and page creation
both succeed, whatever the later stages do: the try/finally discipline of the
source does hold from the start of the try block onward. -/
theorem runRequest_close_once (env : Env) (s : String)
    (h1 : env.launchOk = true) (h2 : env.newPageOk = true) :
    ((runRequest env s).2.count .browserClosed = 1 ∧
     (runRequest env s).2.count .browserLaunched = 1) := by
  simp only [runRequest, h1, h2]
  cases requestBody env <;> simp [List.count_cons]

/-- C3 demonstration at the failing input: the browser launches successfully,
the newPage call fails, and the request aborts having launched a context but
never closing it — zero close events — because the newPage call sits outside
the try/finally of src/app.js (line 109 versus lines 112 and 316-319). -/
theorem C3_newPage_skips_close :
    runRequest ⟨true, false, true, true, true, true, true, true, [], "", ""⟩ "phone" =
      (.error .newPageFailed, [.browserLaunched]) ∧
    (runRequest ⟨true, false, true, true, true, true, true, true, [], "", ""⟩
        "phone").2.count .browserClosed = 0 ∧
    (runRequest ⟨true, false, true, true, true, true, true, true, [], "", ""⟩
        "phone").2.count .browserLaunched = 1 := by
  refine ⟨rfl, by decide, by decide⟩

/-- Unfolding of the statistics function on a non-empty list. -/
theorem calculatePriceStats_ne (l : List ℚ) (h : ¬ l.length = 0) :
    calculatePriceStats l =
      ⟨round2 (l.foldl (· + ·) 0 / l.length),
       round2
         (if (l.insertionSort (· ≤ ·)).length % 2 = 0 then
            ((l.insertionSort (· ≤ ·)).getD ((l.insertionSort (· ≤ ·)).length / 2 - 1) 0 +
             (l.insertionSort (· ≤ ·)).getD ((l.insertionSort (· ≤ ·)).length / 2) 0) / 2
          else (l.insertionSort (· ≤ ·)).getD ((l.insertionSort (· ≤ ·)).length / 2) 0),
       (l.insertionSort (· ≤ ·)).getD 0 0,
       (l.insertionSort (· ≤ ·)).getD ((l.insertionSort (· ≤ ·)).length - 1) 0,
       l.length⟩ := by
  rw [calculatePriceStats, if_neg h]

/-- Indexing with a default is monotone along a sorted list. -/
theorem sorted_getD_mono {s : List ℚ} (hs : s.Sorted (· ≤ ·)) {i j : ℕ}
    (hij : i ≤ j) (hj : j < s.length) : s.getD i 0 ≤ s.getD j 0 := by
  have hi : i < s.length := lt_of_le_of_lt hij hj
  rw [List.getD_eq_getElem s 0 hi, List.getD_eq_getElem s 0 hj]
  have h2 := hs.rel_get_of_le (show (⟨i, hi⟩ : Fin s.length) ≤ ⟨j, hj⟩ from hij)
  simpa using h2

/-- An in-range default-indexed element is a member of the list. -/
theorem getD_mem {s : List ℚ} {i : ℕ} (h : i < s.length) : s.getD i 0 ∈ s := by
  rw [List.getD_eq_getElem s 0 h]
  exact List.getElem_mem h

/-- Rounding to two decimals fixes a value that already is a whole number of
hundredths. -/
theorem round2_eq_self {q : ℚ} {n : ℤ} (h : q * 100 = (n : ℚ)) : round2 q = q := by
  rw [round2, h, round_intCast]
  have h2 : (n : ℚ) = q * 100 := h.symm
  rw [h2]
  field_simp

/-- Rounding to two decimals is monotone. -/
theorem round2_mono {a b : ℚ} (h : a ≤ b) : round2 a ≤ round2 b := by
  rw [round2, round2]
  have h2 : round (a * 100) ≤ round (b * 100) := by
    rw [round_eq, round_eq]
    exact Int.floor_le_floor (by linarith)
  gcongr

/-- C6: the statistics of the empty sequence are all zero; on every non-empty
sequence the count is the length, the minimum and maximum are the least and
greatest elements, the average is the arithmetic mean rounded to two
decimals, and the median is the middle element of the ascending sort (or the
mean of the two middle elements for even length) rounded to two decimals; in
particular the median of [10, 20, 30] is 20 and the median of
[10, 20, 30, 40] is 25. -/
theorem C6_stats_spec :
    calculatePriceStats [] = ⟨0, 0, 0, 0, 0⟩ ∧
    (∀ l : List ℚ, l ≠ [] →
      (calculatePriceStats l).count = l.length ∧
      ((calculatePriceStats l).min ∈ l ∧ ∀ x ∈ l, (calculatePriceStats l).min ≤ x) ∧
      ((calculatePriceStats l).max ∈ l ∧ ∀ x ∈ l, x ≤ (calculatePriceStats l).max) ∧
      (calculatePriceStats l).average = round2 (l.sum / l.length) ∧
      (∀ s : List ℚ, l.Perm s → s.Sorted (· ≤ ·) →
        (calculatePriceStats l).median =
          if l.length % 2 = 0 then
            round2 ((s.getD (l.length / 2 - 1) 0 + s.getD (l.length / 2) 0) / 2)
          else round2 (s.getD (l.length / 2) 0))) ∧
    (calculatePriceStats [10, 20, 30]).median = 20 ∧
    (calculatePriceStats [10, 20, 30, 40]).median = 25 := by
  refine ⟨rfl, ?_, ?_, ?_⟩
  · intro l hl
    have h0 : ¬ l.length = 0 := by simpa using hl
    rw [calculatePriceStats_ne l h0]
    set s0 := l.insertionSort (· ≤ ·) with hs0def
    have hperm : s0.Perm l := List.perm_insertionSort _ l
    have hsort : s0.Sorted (· ≤ ·) := List.sorted_insertionSort _ l
    have hlen : s0.length = l.length := hperm.length_eq
    have hspos : 0 < s0.length := by
      have := Nat.pos_of_ne_zero h0
      omega
    have hmem_l_s : ∀ x ∈ l, x ∈ s0 := fun x hx => hperm.symm.mem_iff.mp hx
    have hminle : ∀ x ∈ l, s0.getD 0 0 ≤ x := by
      intro x hx
      obtain ⟨i, hi, hx2⟩ := List.mem_iff_getElem.mp (hmem_l_s x hx)
      rw [← hx2, ← List.getD_eq_getElem s0 0 hi]
      exact sorted_getD_mono hsort (Nat.zero_le i) hi
    have hmaxge : ∀ x ∈ l, x ≤ s0.getD (s0.length - 1) 0 := by
      intro x hx
      obtain ⟨i, hi, hx2⟩ := List.mem_iff_getElem.mp (hmem_l_s x hx)
      rw [← hx2, ← List.getD_eq_getElem s0 0 hi]
      exact sorted_getD_mono hsort (by omega) (by omega)
    refine ⟨rfl, ⟨hperm.mem_iff.mp (getD_mem hspos), hminle⟩,
      ⟨hperm.mem_iff.mp (getD_mem (by omega)), hmaxge⟩, ?_, ?_⟩
    · rw [List.sum_eq_foldl]
    · intro s hps hsorts
      have hseq : s0 = s :=
        List.eq_of_perm_of_sorted (hperm.trans hps) hsort hsorts
      rw [← hseq, hlen]
      by_cases hpar : l.length % 2 = 0
      · rw [if_pos hpar, if_pos hpar]
      · rw [if_neg hpar, if_neg hpar]
  · have h1 : List.insertionSort (· ≤ ·) [(10 : ℚ), 20, 30] = [10, 20, 30] := by
      norm_num [List.insertionSort, List.orderedInsert]
    rw [calculatePriceStats_ne _ (by norm_num), h1]
    norm_num
    exact @round2_eq_self 20 2000 (by norm_num)
  · have h1 : List.insertionSort (· ≤ ·) [(10 : ℚ), 20, 30, 40] = [10, 20, 30, 40] := by
      norm_num [List.insertionSort, List.orderedInsert]
    rw [calculatePriceStats_ne _ (by norm_num), h1]
    norm_num
    exact @round2_eq_self 25 2500 (by norm_num)

/-- Witness for C6 on the non-empty clause at [10, 20, 30]. -/
theorem C6_stats_spec_witness :
    (calculatePriceStats [10, 20, 30]).count = 3 ∧
    (calculatePriceStats [10, 20, 30]).min ∈ [(10 : ℚ), 20, 30] :=
  ⟨(C6_stats_spec.2.1 [10, 20, 30] (by decide)).1,
   (C6_stats_spec.2.1 [10, 20, 30] (by decide)).2.1.1⟩

/-- C7: on every non-empty sequence of prices (carrying the token invariant
of the data model: each value is a whole number of hundredths), the returned
statistics satisfy min ≤ median ≤ max and min ≤ average ≤ max, where average
and median are the rounded fields and min and max the unrounded extrema. -/
theorem C7_stats_order (l : List ℚ) (hne : l ≠ [])
    (hinv : ∀ x ∈ l, ∃ n : ℤ, x = (n : ℚ) / 100) :
    (calculatePriceStats l).min ≤ (calculatePriceStats l).median ∧
    (calculatePriceStats l).median ≤ (calculatePriceStats l).max ∧
    (calculatePriceStats l).min ≤ (calculatePriceStats l).average ∧
    (calculatePriceStats l).average ≤ (calculatePriceStats l).max := by
  have h0 : ¬ l.length = 0 := by simpa using hne
  have hpos : 0 < l.length := Nat.pos_of_ne_zero h0
  rw [calculatePriceStats_ne l h0]
  set s0 := l.insertionSort (· ≤ ·) with hs0def
  have hperm : s0.Perm l := List.perm_insertionSort _ l
  have hsort : s0.Sorted (· ≤ ·) := List.sorted_insertionSort _ l
  have hlen : s0.length = l.length := hperm.length_eq
  have hspos : 0 < s0.length := by omega
  have hminmem : s0.getD 0 0 ∈ l := hperm.mem_iff.mp (getD_mem hspos)
  have hmaxmem : s0.getD (s0.length - 1) 0 ∈ l := hperm.mem_iff.mp (getD_mem (by omega))
  obtain ⟨nmin, hnmin⟩ := hinv _ hminmem
  obtain ⟨nmax, hnmax⟩ := hinv _ hmaxmem
  have hfixmin : round2 (s0.getD 0 0) = s0.getD 0 0 :=
    @round2_eq_self _ nmin (by rw [hnmin]; field_simp)
  have hfixmax : round2 (s0.getD (s0.length - 1) 0) = s0.getD (s0.length - 1) 0 :=
    @round2_eq_self _ nmax (by rw [hnmax]; field_simp)
  have hmem_l_s : ∀ x ∈ l, x ∈ s0 := fun x hx => hperm.symm.mem_iff.mp hx
  have hminle : ∀ x ∈ l, s0.getD 0 0 ≤ x := by
    intro x hx
    obtain ⟨i, hi, hx2⟩ := List.mem_iff_getElem.mp (hmem_l_s x hx)
    rw [← hx2, ← List.getD_eq_getElem s0 0 hi]
    exact sorted_getD_mono hsort (Nat.zero_le i) hi
  have hmaxge : ∀ x ∈ l, x ≤ s0.getD (s0.length - 1) 0 := by
    intro x hx
    obtain ⟨i, hi, hx2⟩ := List.mem_iff_getElem.mp (hmem_l_s x hx)
    rw [← hx2, ← List.getD_eq_getElem s0 0 hi]
    exact sorted_getD_mono hsort (by omega) (by omega)
  have hmid : s0.length / 2 < s0.length := Nat.div_lt_self hspos (by norm_num)
  have hmedlow : s0.getD 0 0 ≤
      (if s0.length % 2 = 0 then
        (s0.getD (s0.length / 2 - 1) 0 + s0.getD (s0.length / 2) 0) / 2
      else s0.getD (s0.length / 2) 0) := by
    have ha := sorted_getD_mono hsort (Nat.zero_le (s0.length / 2)) hmid
    have hb := sorted_getD_mono hsort (Nat.zero_le (s0.length / 2 - 1)) (by omega)
    split_ifs with hpar
    · linarith
    · exact ha
  have hmedhigh :
      (if s0.length % 2 = 0 then
        (s0.getD (s0.length / 2 - 1) 0 + s0.getD (s0.length / 2) 0) / 2
      else s0.getD (s0.length / 2) 0) ≤ s0.getD (s0.length - 1) 0 := by
    have ha := sorted_getD_mono hsort (show s0.length / 2 ≤ s0.length - 1 by omega) (by omega)
    have hb := sorted_getD_mono hsort
      (show s0.length / 2 - 1 ≤ s0.length - 1 by omega) (by omega)
    split_ifs with hpar
    · linarith
    · exact ha
  have hsumlow : (l.length : ℚ) * s0.getD 0 0 ≤ l.sum := by
    have h2 := List.card_nsmul_le_sum l _ hminle
    simpa [nsmul_eq_mul] using h2
  have hsumhigh : l.sum ≤ (l.length : ℚ) * s0.getD (s0.length - 1) 0 := by
    have h2 := List.sum_le_card_nsmul l _ hmaxge
    simpa [nsmul_eq_mul] using h2
  have hlenpos : (0 : ℚ) < l.length := by exact_mod_cast hpos
  have havglow : s0.getD 0 0 ≤ l.sum / l.length := by
    rw [le_div_iff₀ hlenpos]
    linarith
  have havghigh : l.sum / l.length ≤ s0.getD (s0.length - 1) 0 := by
    rw [div_le_iff₀ hlenpos]
    linarith
  have hfold : l.foldl (· + ·) 0 = l.sum := List.sum_eq_foldl.symm
  refine ⟨?_, ?_, ?_, ?_⟩
  · calc s0.getD 0 0 = round2 (s0.getD 0 0) := hfixmin.symm
      _ ≤ _ := round2_mono hmedlow
  · calc round2 (if s0.length % 2 = 0 then
          (s0.getD (s0.length / 2 - 1) 0 + s0.getD (s0.length / 2) 0) / 2
        else s0.getD (s0.length / 2) 0)
        ≤ round2 (s0.getD (s0.length - 1) 0) := round2_mono hmedhigh
      _ = s0.getD (s0.length - 1) 0 := hfixmax
  · calc s0.getD 0 0 = round2 (s0.getD 0 0) := hfixmin.symm
      _ ≤ round2 (l.foldl (· + ·) 0 / l.length) := by
          rw [hfold]
          exact round2_mono havglow
  · calc round2 (l.foldl (· + ·) 0 / l.length)
        ≤ round2 (s0.getD (s0.length - 1) 0) := by
          rw [hfold]
          exact round2_mono havghigh
      _ = s0.getD (s0.length - 1) 0 := hfixmax

/-- Witness for C7 at the sequence [10, 20, 30]. -/
theorem C7_stats_order_witness :
    (calculatePriceStats [10, 20, 30]).min ≤ (calculatePriceStats [10, 20, 30]).median :=
  (C7_stats_order [10, 20, 30] (by decide) (by
    intro x hx
    fin_cases hx
    · exact ⟨1000, by norm_num⟩
    · exact ⟨2000, by norm_num⟩
    · exact ⟨3000, by norm_num⟩)).1

/-- Characterization of a successful scroll run: the stopping tick is at or
after the starting tick, the accumulated amount grows by exactly the fixed
distance per tick taken, the measured geometry condition holds at the
stopping tick, and at no earlier tick. -/
theorem autoScrollRun_sound (scrollHeight : ℕ → ℤ) (innerHeight : ℤ) :
    ∀ (fuel t0 : ℕ) (total0 : ℤ) (t : ℕ) (total : ℤ),
      autoScrollRun scrollHeight innerHeight fuel t0 total0 = some (t, total) →
      t0 ≤ t ∧ total = total0 + scrollDistance * ((t + 1 - t0 : ℕ) : ℤ) ∧
      scrollHeight t - innerHeight ≤ total ∧
      ∀ s2, t0 ≤ s2 → s2 < t →
        ¬(scrollHeight s2 - innerHeight ≤
          total0 + scrollDistance * ((s2 + 1 - t0 : ℕ) : ℤ)) := by
  intro fuel
  induction fuel with
  | zero =>
    intro t0 total0 t total h
    simp [autoScrollRun] at h
  | succ n ih =>
    intro t0 total0 t total h
    simp only [autoScrollRun] at h
    split at h
    · next hc =>
      obtain ⟨rfl, rfl⟩ : t0 = t ∧ total0 + scrollDistance = total := by
        constructor <;> (cases h; rfl)
      refine ⟨le_refl _, ?_, ?_, ?_⟩
      · simp only [scrollDistance]
        omega
      · exact hc
      · intro s2 h1 h2
        omega
    · next hc =>
      obtain ⟨h1, h2, h3, h4⟩ := ih (t0 + 1) (total0 + scrollDistance) t total h
      refine ⟨by omega, ?_, h3, ?_⟩
      · rw [h2]
        simp only [scrollDistance]
        omega
      · intro s2 hs1 hs2
        by_cases he : s2 = t0
        · subst he
          simp only [scrollDistance] at hc ⊢
          omega
        · have h5 := h4 s2 (by omega) hs2
          simp only [scrollDistance] at h5 ⊢
          push_cast at h5 ⊢
          omega

/-- The scroll run succeeds within d + 1 ticks when the geometry condition is
met d ticks ahead of the start. -/
theorem autoScrollRun_succeeds (scrollHeight : ℕ → ℤ) (innerHeight : ℤ) :
    ∀ (d t0 : ℕ) (total0 : ℤ),
      scrollHeight (t0 + d) - innerHeight ≤ total0 + scrollDistance * ((d : ℤ) + 1) →
      ∃ t total, autoScrollRun scrollHeight innerHeight (d + 1) t0 total0 = some (t, total) := by
  intro d
  induction d with
  | zero =>
    intro t0 total0 h
    refine ⟨t0, total0 + scrollDistance, ?_⟩
    simp only [autoScrollRun]
    rw [if_pos]
    simp only [Nat.add_zero] at h
    simp only [scrollDistance] at h ⊢
    push_cast at h
    omega
  | succ n ihd =>
    intro t0 total0 h
    simp only [autoScrollRun]
    by_cases hc : scrollHeight t0 - innerHeight ≤ total0 + scrollDistance
    · exact ⟨t0, total0 + scrollDistance, by rw [if_pos hc]⟩
    · rw [if_neg hc]
      apply ihd (t0 + 1) (total0 + scrollDistance)
      have hidx : t0 + 1 + n = t0 + (n + 1) := by omega
      rw [hidx]
      simp only [scrollDistance] at h ⊢
      push_cast at h ⊢
      omega

/-- C9: the lazy-load scroll loop advances the accumulated scroll amount by
the fixed increment of 400 pixels per tick, stops at the first tick at which
the accumulated amount reaches the measured document height minus the
viewport height, and — whenever the document height eventually stops
growing — it terminates: its bound is page geometry, not wall-clock time. -/
theorem C9_autoscroll (scrollHeight : ℕ → ℤ) (innerHeight : ℤ) :
    ((∃ N H, ∀ t, N ≤ t → scrollHeight t = H) →
      ∃ fuel t total, autoScrollRun scrollHeight innerHeight fuel 0 0 = some (t, total)) ∧
    (∀ fuel t total,
      autoScrollRun scrollHeight innerHeight fuel 0 0 = some (t, total) →
      total = scrollDistance * ((t : ℤ) + 1) ∧
      scrollHeight t - innerHeight ≤ total ∧
      ∀ s2 < t, ¬(scrollHeight s2 - innerHeight ≤ scrollDistance * ((s2 : ℤ) + 1))) := by
  constructor
  · rintro ⟨N, H, hH⟩
    set d := N + (H - innerHeight).toNat with hd
    have hcond : scrollHeight (0 + d) - innerHeight ≤ 0 + scrollDistance * ((d : ℤ) + 1) := by
      have hhd : scrollHeight (0 + d) = H := hH _ (by omega)
      rw [hhd]
      have htn := Int.self_le_toNat (H - innerHeight)
      simp only [scrollDistance]
      have hcast : ((H - innerHeight).toNat : ℤ) ≤ (d : ℤ) := by
        exact_mod_cast Nat.le_add_left ((H - innerHeight).toNat) N
      omega
    obtain ⟨t, total, hrun⟩ := autoScrollRun_succeeds scrollHeight innerHeight d 0 0 hcond
    exact ⟨d + 1, t, total, hrun⟩
  · intro fuel t total h
    obtain ⟨h1, h2, h3, h4⟩ := autoScrollRun_sound scrollHeight innerHeight fuel 0 0 t total h
    refine ⟨?_, h3, ?_⟩
    · rw [h2]
      simp only [scrollDistance]
      push_cast
      omega
    · intro s2 hs2
      have h5 := h4 s2 (Nat.zero_le _) hs2
      simp only [scrollDistance] at h5 ⊢
      push_cast at h5 ⊢
      omega

/-- Witness for C9: on a page of constant height 2000 with viewport 800 the
loop stops at tick 2 having scrolled 1200 pixels, which the characterization
confirms equals the fixed distance times the number of ticks; and the
eventually-constant geometry yields termination. -/
theorem C9_autoscroll_witness :
    autoScrollRun (fun _ => 2000) 800 3 0 0 = some (2, 1200) ∧
    (1200 : ℤ) = scrollDistance * ((2 : ℤ) + 1) ∧
    (∃ fuel t total, autoScrollRun (fun _ => 2000) 800 fuel 0 0 = some (t, total)) := by
  have h1 : autoScrollRun (fun _ => 2000) 800 3 0 0 = some (2, 1200) := by decide
  exact ⟨h1, ((C9_autoscroll (fun _ => 2000) 800).2 3 2 1200 h1).1,
    (C9_autoscroll (fun _ => 2000) 800).1 ⟨0, 2000, fun t _ => rfl⟩⟩

/-- The decimal-digit class in terms of code points. -/
theorem isDigit_toNat {c : Char} : c.isDigit = true ↔ 48 ≤ c.toNat ∧ c.toNat ≤ 57 := by
  simp [Char.isDigit, Char.toNat, UInt32.le_def, BitVec.le_def, UInt32.toNat]

/-- A digit is not a whitespace character. -/
theorem isJsWS_of_isDigit {c : Char} (h : c.isDigit = true) : isJsWS c = false := by
  have h2 := isDigit_toNat.mp h
  simp only [isJsWS]
  simp only [Bool.or_eq_false_iff, Bool.and_eq_false_iff, decide_eq_false_iff_not]
  omega

/-- Decomposition of the optional-whitespace step. -/
theorem dropOneWS_sound (l : List Char) :
    l = (dropOneWS l).1 ++ (dropOneWS l).2 ∧
    ((dropOneWS l).1 = [] ∨ ∃ c, isJsWS c = true ∧ (dropOneWS l).1 = [c]) := by
  match l with
  | [] => exact ⟨rfl, Or.inl rfl⟩
  | c :: r =>
    rw [dropOneWS]
    by_cases h : isJsWS c
    · rw [if_pos h]
      exact ⟨rfl, Or.inr ⟨c, h, rfl⟩⟩
    · rw [if_neg h]
      exact ⟨rfl, Or.inl rfl⟩

/-- The whitespace step consumes one leading whitespace character. -/
theorem dropOneWS_ws {c : Char} {r : List Char} (h : isJsWS c = true) :
    dropOneWS (c :: r) = ([c], r) := by
  rw [dropOneWS, if_pos h]

/-- The whitespace step consumes nothing when the head is not whitespace. -/
theorem dropOneWS_not {c : Char} {r : List Char} (h : isJsWS c = false) :
    dropOneWS (c :: r) = ([], c :: r) := by
  rw [dropOneWS, if_neg (by simp [h])]

/-- Decomposition of a successful one-to-three-digit read. -/
theorem takeUpTo3Digits_sound {l ds r : List Char}
    (h : takeUpTo3Digits l = some (ds, r)) :
    l = ds ++ r ∧ (∀ c ∈ ds, c.isDigit = true) ∧ 1 ≤ ds.length ∧ ds.length ≤ 3 := by
  rcases l with _ | ⟨a, _ | ⟨b, _ | ⟨c, r3⟩⟩⟩
  · simp [takeUpTo3Digits] at h
  · by_cases ha : a.isDigit
    · simp only [takeUpTo3Digits, if_pos ha, Option.some.injEq, Prod.mk.injEq] at h
      obtain ⟨rfl, rfl⟩ := h.symm
      refine ⟨by simp, ?_, by simp, by simp⟩
      intro x hx
      rw [List.mem_singleton] at hx
      subst hx
      exact ha
    · simp [takeUpTo3Digits, ha] at h
  · by_cases ha : a.isDigit
    · by_cases hb : b.isDigit
      · simp only [takeUpTo3Digits, if_pos ha, if_pos hb,
          Option.some.injEq, Prod.mk.injEq] at h
        obtain ⟨rfl, rfl⟩ := h.symm
        refine ⟨by simp, ?_, by simp, by simp⟩
        intro x hx
        rw [List.mem_cons, List.mem_singleton] at hx
        rcases hx with rfl | rfl
        · exact ha
        · exact hb
      · simp only [takeUpTo3Digits, if_pos ha, if_neg hb,
          Option.some.injEq, Prod.mk.injEq] at h
        obtain ⟨rfl, rfl⟩ := h.symm
        refine ⟨by simp, ?_, by simp, by simp⟩
        intro x hx
        rw [List.mem_singleton] at hx
        subst hx
        exact ha
    · simp [takeUpTo3Digits, ha] at h
  · by_cases ha : a.isDigit
    · by_cases hb : b.isDigit
      · by_cases hc : c.isDigit
        · simp only [takeUpTo3Digits, if_pos ha, if_pos hb, if_pos hc,
            Option.some.injEq, Prod.mk.injEq] at h
          obtain ⟨rfl, rfl⟩ := h.symm
          refine ⟨by simp, ?_, by simp, by simp⟩
          intro x hx
          rw [List.mem_cons, List.mem_cons, List.mem_singleton] at hx
          rcases hx with rfl | rfl | rfl
          · exact ha
          · exact hb
          · exact hc
        · simp only [takeUpTo3Digits, if_pos ha, if_pos hb, if_neg hc,
            Option.some.injEq, Prod.mk.injEq] at h
          obtain ⟨rfl, rfl⟩ := h.symm
          refine ⟨by simp, ?_, by simp, by simp⟩
          intro x hx
          rw [List.mem_cons, List.mem_singleton] at hx
          rcases hx with rfl | rfl
          · exact ha
          · exact hb
      · simp only [takeUpTo3Digits, if_pos ha, if_neg hb,
          Option.some.injEq, Prod.mk.injEq] at h
        obtain ⟨rfl, rfl⟩ := h.symm
        refine ⟨by simp, ?_, by simp, by simp⟩
        intro x hx
        rw [List.mem_singleton] at hx
        subst hx
        exact ha
    · simp [takeUpTo3Digits, ha] at h

/-- The digit read consumes exactly a block of one to three digits when the
rest does not begin with a digit. -/
theorem takeUpTo3Digits_complete {ds rest : List Char}
    (hd : ∀ c ∈ ds, c.isDigit = true) (h1 : 1 ≤ ds.length) (h3 : ds.length ≤ 3)
    (hr : ∀ c, rest.head? = some c → c.isDigit = false) :
    takeUpTo3Digits (ds ++ rest) = some (ds, rest) := by
  rcases ds with _ | ⟨a, _ | ⟨b, _ | ⟨c, ds4⟩⟩⟩
  · simp at h1
  · have ha : a.isDigit = true := hd a (by simp)
    rcases rest with _ | ⟨x, rest2⟩
    · simp [takeUpTo3Digits, ha]
    · have hx : x.isDigit = false := hr x rfl
      simp [takeUpTo3Digits, ha, hx]
  · have ha : a.isDigit = true := hd a (by simp)
    have hb : b.isDigit = true := hd b (by simp)
    rcases rest with _ | ⟨x, rest2⟩
    · simp [takeUpTo3Digits, ha, hb]
    · have hx : x.isDigit = false := hr x rfl
      simp [takeUpTo3Digits, ha, hb, hx]
  · have hlen : ds4.length = 0 := by
      simp only [List.length_cons] at h3
      omega
    have hds4 : ds4 = [] := List.length_eq_zero.mp hlen
    subst hds4
    have ha : a.isDigit = true := hd a (by simp)
    have hb : b.isDigit = true := hd b (by simp)
    have hc : c.isDigit = true := hd c (by simp)
    simp [takeUpTo3Digits, ha, hb, hc]

/-- The group read returns the input untouched when it does not begin with a
comma. -/
theorem takeGroups_not_comma {l : List Char} (h : l.head? ≠ some ',') :
    takeGroups l = ([], l) := by
  rw [takeGroups.eq_def]
  split
  · next a b c r => simp at h
  · rfl

/-- Decomposition of the group read. -/
theorem takeGroups_sound (l : List Char) :
    l = (takeGroups l).1 ++ (takeGroups l).2 ∧ IsGroups (takeGroups l).1 := by
  induction l using takeGroups.induct with
  | case1 a b c r habc gs r2 heq ih =>
    rw [takeGroups.eq_def]
    simp only [if_pos habc, heq]
    obtain ⟨hab, hc⟩ := Bool.and_eq_true_iff.mp habc
    obtain ⟨ha, hb⟩ := Bool.and_eq_true_iff.mp hab
    rw [heq] at ih
    exact ⟨by simpa using ih.1, IsGroups.cons a b c gs ha hb hc ih.2⟩
  | case2 a b c r habc =>
    rw [takeGroups.eq_def]
    simp only [if_neg habc]
    exact ⟨rfl, IsGroups.nil⟩
  | case3 l hshape =>
    have heq : takeGroups l = ([], l) := by
      rw [takeGroups.eq_def]
      split
      · next a b c r => exact (hshape a b c r rfl).elim
      · rfl
    rw [heq]
    exact ⟨rfl, IsGroups.nil⟩

/-- The group read consumes exactly a group block when the rest does not
begin with a comma. -/
theorem takeGroups_complete {gs rest : List Char} (hg : IsGroups gs)
    (hr : rest.head? ≠ some ',') : takeGroups (gs ++ rest) = (gs, rest) := by
  induction hg with
  | nil => simpa using takeGroups_not_comma hr
  | cons a b c gs2 ha hb hc _ ih =>
    rw [List.cons_append, List.cons_append, List.cons_append, List.cons_append,
      takeGroups.eq_def]
    simp only [if_pos (by simp [ha, hb, hc] : (a.isDigit && b.isDigit && c.isDigit) = true)]
    rw [ih]

/-- Decomposition of the fraction read. -/
theorem takeFrac_sound (l : List Char) :
    l = (takeFrac l).1 ++ (takeFrac l).2 ∧
    ((takeFrac l).1 = [] ∨ ∃ es, (takeFrac l).1 = '.' :: es ∧
      (∀ c ∈ es, c.isDigit = true) ∧ 1 ≤ es.length ∧ es.length ≤ 2) := by
  rw [takeFrac.eq_def]
  split
  · next a r =>
    by_cases ha : a.isDigit
    · rw [if_pos ha]
      rcases r with _ | ⟨b, r2⟩
      · refine ⟨by simp, Or.inr ⟨[a], rfl, ?_, by simp, by simp⟩⟩
        intro x hx
        rw [List.mem_singleton] at hx
        subst hx
        exact ha
      · by_cases hb : b.isDigit
        · simp only [if_pos hb]
          refine ⟨by simp, Or.inr ⟨[a, b], rfl, ?_, by simp, by simp⟩⟩
          intro x hx
          rw [List.mem_cons, List.mem_singleton] at hx
          rcases hx with rfl | rfl
          · exact ha
          · exact hb
        · simp only [if_neg hb]
          refine ⟨by simp, Or.inr ⟨[a], rfl, ?_, by simp, by simp⟩⟩
          intro x hx
          rw [List.mem_singleton] at hx
          subst hx
          exact ha
    · rw [if_neg ha]
      exact ⟨rfl, Or.inl rfl⟩
  · exact ⟨rfl, Or.inl rfl⟩

/-- The fraction read consumes exactly a well-formed fractional block that
ends the input. -/
theorem takeFrac_complete {fs : List Char}
    (hf : fs = [] ∨ ∃ es, fs = '.' :: es ∧ (∀ c ∈ es, c.isDigit = true) ∧
      1 ≤ es.length ∧ es.length ≤ 2) :
    takeFrac fs = (fs, []) := by
  rcases hf with rfl | ⟨es, rfl, hes, h1, h2⟩
  · rfl
  · rcases es with _ | ⟨a, _ | ⟨b, _ | ⟨c, es4⟩⟩⟩
    · simp at h1
    · have ha : a.isDigit = true := hes a (by simp)
      simp [takeFrac, ha]
    · have ha : a.isDigit = true := hes a (by simp)
      have hb : b.isDigit = true := hes b (by simp)
      simp [takeFrac, ha, hb]
    · simp only [List.length_cons] at h2
      omega

/-- Decomposition of a successful pattern attempt after the marker: the
consumed text splits into optional whitespace, one to three digits, thousands
groups and an optional fraction, and the capture is everything but the
whitespace. -/
theorem matchAfterR_sound {l g r : List Char} (h : matchAfterR l = some (g, r)) :
    ∃ w ds gs fs,
      (w = [] ∨ ∃ c, isJsWS c = true ∧ w = [c]) ∧
      (∀ c ∈ ds, c.isDigit = true) ∧ 1 ≤ ds.length ∧ ds.length ≤ 3 ∧
      IsGroups gs ∧
      (fs = [] ∨ ∃ es, fs = '.' :: es ∧ (∀ c ∈ es, c.isDigit = true) ∧
        1 ≤ es.length ∧ es.length ≤ 2) ∧
      g = ds ++ gs ++ fs ∧ l = w ++ (ds ++ gs ++ fs) ++ r := by
  obtain ⟨hw1, hw2⟩ := dropOneWS_sound l
  rcases hp : dropOneWS l with ⟨w, l1⟩
  rw [hp] at hw1 hw2
  dsimp only at hw1 hw2
  rw [matchAfterR, hp] at h
  dsimp only at h
  rcases hq : takeUpTo3Digits l1 with _ | ⟨ds, r1⟩
  · rw [hq] at h
    simp at h
  · rw [hq] at h
    dsimp only at h
    obtain ⟨hd1, hd2, hd3, hd4⟩ := takeUpTo3Digits_sound hq
    obtain ⟨hg1, hg2⟩ := takeGroups_sound r1
    rcases hgp : takeGroups r1 with ⟨gs, r2⟩
    rw [hgp] at h hg1 hg2
    dsimp only at h hg1 hg2
    obtain ⟨hf1, hf2⟩ := takeFrac_sound r2
    rcases hfp : takeFrac r2 with ⟨fs, r3⟩
    rw [hfp] at h hf1 hf2
    dsimp only at h hf1 hf2
    simp only [Option.some.injEq, Prod.mk.injEq] at h
    obtain ⟨rfl, rfl⟩ := h.symm
    refine ⟨w, ds, gs, fs, hw2, hd2, hd3, hd4, hg2, hf2, rfl, ?_⟩
    rw [hw1, hd1, hg1, hf1]
    simp [List.append_assoc]

/-- The pattern attempt after the marker accepts in full every well-formed
marker-free price body. -/
theorem matchAfterR_complete {w ds gs fs : List Char}
    (hw : w = [] ∨ ∃ c, isJsWS c = true ∧ w = [c])
    (hd : ∀ c ∈ ds, c.isDigit = true) (h1 : 1 ≤ ds.length) (h3 : ds.length ≤ 3)
    (hg : IsGroups gs)
    (hf : fs = [] ∨ ∃ es, fs = '.' :: es ∧ (∀ c ∈ es, c.isDigit = true) ∧
      1 ≤ es.length ∧ es.length ≤ 2) :
    matchAfterR (w ++ ds ++ gs ++ fs) = some (ds ++ gs ++ fs, []) := by
  have hdshape : ∃ a ds2, ds = a :: ds2 ∧ a.isDigit = true := by
    rcases ds with _ | ⟨a, ds2⟩
    · simp at h1
    · exact ⟨a, ds2, rfl, hd a (by simp)⟩
  have hdrop : dropOneWS (w ++ ds ++ gs ++ fs) = (w, ds ++ gs ++ fs) := by
    rcases hw with rfl | ⟨c, hc, rfl⟩
    · obtain ⟨a, ds2, rfl, ha⟩ := hdshape
      simp only [List.nil_append, List.cons_append]
      exact dropOneWS_not (isJsWS_of_isDigit ha)
    · simp only [List.cons_append, List.nil_append]
      exact dropOneWS_ws hc
  have hhead : ∀ c, (gs ++ fs).head? = some c → c.isDigit = false := by
    intro c hc
    cases hg with
    | nil =>
      simp only [List.nil_append] at hc
      rcases hf with rfl | ⟨es, rfl, _, _, _⟩
      · simp at hc
      · simp only [List.head?_cons, Option.some.injEq] at hc
        subst hc
        decide
    | cons a b c2 rest2 ha hb hc2 hrest =>
      simp only [List.cons_append, List.head?_cons, Option.some.injEq] at hc
      subst hc
      decide
  have hdig : takeUpTo3Digits (ds ++ gs ++ fs) = some (ds, gs ++ fs) := by
    rw [List.append_assoc]
    exact takeUpTo3Digits_complete hd h1 h3 hhead
  have hgrp : takeGroups (gs ++ fs) = (gs, fs) := by
    apply takeGroups_complete hg
    rcases hf with rfl | ⟨es, rfl, _, _, _⟩
    · simp
    · simp only [List.head?_cons, ne_eq, Option.some.injEq]
      decide
  have hfrc : takeFrac fs = (fs, []) := takeFrac_complete hf
  rw [matchAfterR, hdrop]
  dsimp only
  rw [hdig]
  dsimp only
  rw [hgrp, hfrc]

/-- Inversion of a successful full-pattern attempt: the text begins with the
literal marker and the rest matches the remainder of the pattern. -/
theorem matchPriceAt_some {l g r : List Char} (h : matchPriceAt l = some (g, r)) :
    ∃ rest, l = 'R' :: rest ∧ matchAfterR rest = some (g, r) := by
  rw [matchPriceAt.eq_def] at h
  split at h
  · next rest => exact ⟨rest, rfl, h⟩
  · simp at h

/-- The OCR scan computes exactly the markup scan's function of its text:
both are the global match list filtered through the token parser. -/
theorem ocr_eq_html (text : String) : pricesFromOCR text = pricesFromHTML text := by
  rw [pricesFromOCR, pricesFromHTML, List.filterMap_map]
  congr 1
  funext g
  simp only [Function.comp_apply]
  rw [normalize]
  cases jsParseFloat (stripCommas g) <;> rfl

/-- C4: the three strategies apply one identical currency pattern — the OCR
scan computes exactly the markup scan's function of its text, the structured
scan's single match is the head of the same global match list, so each
strategy's matches are determined by the one pattern — and the matcher
accepts a string in full exactly when it is a literal currency marker,
optional whitespace, an integer part with optional thousands grouping by
commas, and an optional fractional part of one or two digits. -/
theorem C4_single_pattern :
    (∀ text : String, pricesFromOCR text = pricesFromHTML text) ∧
    (∀ l : List Char, firstMatch l = (allMatches l).head?) ∧
    (∀ s : List Char, (∃ g, matchPriceAt s = some (g, [])) ↔ PricePattern s) := by
  refine ⟨ocr_eq_html, ?_, ?_⟩
  · intro l
    induction l with
    | nil => rfl
    | cons c rest ih =>
      have ha : allMatches (c :: rest) = allMatchesAux (rest.length + 1) (c :: rest) := rfl
      rw [firstMatch, ha]
      simp only [allMatchesAux]
      cases hm : matchPriceAt (c :: rest) with
      | some gr =>
        rcases gr with ⟨g, r2⟩
        simp [hm]
      | none =>
        simp only [hm]
        rw [ih]
        rfl
  · intro s
    constructor
    · rintro ⟨g, hg⟩
      obtain ⟨rest, rfl, hm⟩ := matchPriceAt_some hg
      obtain ⟨w, ds, gs, fs, hw, hd, h1, h3, hgr, hf, hgeq, hleq⟩ := matchAfterR_sound hm
      refine ⟨w, ds, gs, fs, hw, hd, h1, h3, hgr, hf, ?_⟩
      rw [hleq]
      simp [List.append_assoc]
    · rintro ⟨w, ds, gs, fs, hw, hd, h1, h3, hgr, hf, rfl⟩
      refine ⟨ds ++ gs ++ fs, ?_⟩
      have hR : matchPriceAt ('R' :: (w ++ ds ++ gs ++ fs)) =
          matchAfterR (w ++ ds ++ gs ++ fs) := rfl
      rw [hR]
      exact matchAfterR_complete hw hd h1 h3 hgr hf

/-- C5: the token parser strips comma thousands separators and parses the
remainder as a float, dropping the token — with no error — exactly when the
result is non-numeric or at most zero; a currency marker with no digits
yields no token at all, the match on "R1,234.50" yields 1234.50, and the
match on "R99" yields 99. -/
theorem C5_normalize_spec :
    (∀ l : List Char,
      normalize l = none ↔
        (jsParseFloat (stripCommas l) = none ∨
         ∃ v, jsParseFloat (stripCommas l) = some v ∧ v ≤ 0)) ∧
    firstMatch "R".toList = none ∧
    allMatches "R".toList = [] ∧
    pricesFromHTML "R1,234.50" = [1234.50] ∧
    pricesFromHTML "R99" = [99] := by
  refine ⟨?_, by decide, by decide, ?_, ?_⟩
  · intro l
    rw [normalize]
    rcases hp : jsParseFloat (stripCommas l) with _ | v
    · simp
    · dsimp only
      by_cases hv : 0 < v
      · have hv2 : ¬ v ≤ 0 := not_le.mpr hv
        rw [if_pos hv]
        simp [hv2]
      · rw [if_neg hv]
        simp only [true_iff]
        exact Or.inr ⟨v, rfl, not_lt.mp hv⟩
  · have ha : allMatches "R1,234.50".toList =
        [['1', ',', '2', '3', '4', '.', '5', '0']] := by decide
    have ht : normalize ['1', ',', '2', '3', '4', '.', '5', '0'] = some 1234.50 :=
      @normalize_frac_eval ['1', ',', '2', '3', '4', '.', '5', '0']
        ['1', '2', '3', '4'] ['5', '0'] 1234 50 1234.50
        (by decide) (by decide) (by decide) (by norm_num) (by norm_num)
    rw [pricesFromHTML, ha]
    simp [List.filterMap_cons, ht]
  · have ha : allMatches "R99".toList = [['9', '9']] := by decide
    have ht : normalize ['9', '9'] = some 99 :=
      @normalize_int_eval ['9', '9'] ['9', '9'] 99 99
        (by decide) (by decide) (by norm_num) (by norm_num)
    rw [pricesFromHTML, ha]
    simp [List.filterMap_cons, ht]

/-- A digit is not a comma, dot or sign character. -/
theorem digit_ne_special {c : Char} (h : c.isDigit = true) :
    (c != ',') = true ∧ c ≠ '.' ∧ c ≠ '-' ∧ c ≠ '+' := by
  have h2 := isDigit_toNat.mp h
  refine ⟨?_, ?_, ?_, ?_⟩
  · simp only [bne_iff_ne, ne_eq]
    rintro rfl
    exact absurd h2 (by decide)
  · rintro rfl
    exact absurd h2 (by decide)
  · rintro rfl
    exact absurd h2 (by decide)
  · rintro rfl
    exact absurd h2 (by decide)

/-- Stripping commas from an all-digit string changes nothing. -/
theorem stripCommas_digits {ds : List Char} (hd : ∀ c ∈ ds, c.isDigit = true) :
    stripCommas ds = ds := by
  rw [stripCommas]
  apply List.filter_eq_self.mpr
  intro c hc
  exact (digit_ne_special (hd c hc)).1

/-- Stripping commas from a group block leaves only digits. -/
theorem stripCommas_groups {gs : List Char} (hg : IsGroups gs) :
    ∀ c ∈ stripCommas gs, c.isDigit = true := by
  induction hg with
  | nil =>
    intro c hc
    simp [stripCommas] at hc
  | cons a b c rest ha hb hc hrest ih =>
    intro x hx
    rw [stripCommas, List.filter_cons] at hx
    rw [show ((',' : Char) != ',') = false from by decide] at hx
    simp only [Bool.false_eq_true, if_false] at hx
    rw [List.filter_cons, if_pos (by simp [(digit_ne_special ha).1])] at hx
    rw [List.filter_cons, if_pos (by simp [(digit_ne_special hb).1])] at hx
    rw [List.filter_cons, if_pos (by simp [(digit_ne_special hc).1])] at hx
    rcases List.mem_cons.mp hx with rfl | hx2
    · exact ha
    rcases List.mem_cons.mp hx2 with rfl | hx3
    · exact hb
    rcases List.mem_cons.mp hx3 with rfl | hx4
    · exact hc
    · exact ih x hx4

/-- The digit run consumes exactly an all-digit prefix when the rest does not
begin with a digit. -/
theorem takeDigits_complete {ds rest : List Char} (hd : ∀ c ∈ ds, c.isDigit = true)
    (hr : ∀ c, rest.head? = some c → c.isDigit = false) :
    takeDigits (ds ++ rest) = (ds, rest) := by
  induction ds with
  | nil =>
    rcases rest with _ | ⟨x, r2⟩
    · rfl
    · have hx : x.isDigit = false := hr x rfl
      simp [takeDigits, hx]
  | cons a ds2 ih =>
    have ha : a.isDigit = true := hd a (by simp)
    rw [List.cons_append]
    simp only [takeDigits, if_pos ha]
    rw [ih (fun c hc => hd c (by simp [hc]))]

/-- Dropping whitespace from a string that starts with a non-whitespace
character changes nothing. -/
theorem dropWhile_not_ws {a : Char} {l : List Char} (h : isJsWS a = false) :
    (a :: l).dropWhile isJsWS = a :: l := by
  rw [List.dropWhile_cons, if_neg (by simp [h])]

/-- The sign step reads no sign from a string that does not begin with one. -/
theorem jsParseSign_not {l : List Char}
    (h : ∀ c, l.head? = some c → c ≠ '-' ∧ c ≠ '+') : jsParseSign l = (false, l) := by
  rw [jsParseSign.eq_def]
  split
  · next r => exact absurd rfl (h '-' rfl).1
  · next r => exact absurd rfl (h '+' rfl).2
  · rfl

/-- Digit-level parse of a stripped capture: the integer digits and the
fraction digits are read back exactly, with no sign. -/
theorem jsParseParts_capture {ids fs : List Char}
    (hi : ∀ c ∈ ids, c.isDigit = true) (h1 : 1 ≤ ids.length)
    (hf : fs = [] ∨ ∃ es, fs = '.' :: es ∧ (∀ c ∈ es, c.isDigit = true) ∧
      1 ≤ es.length ∧ es.length ≤ 2) :
    jsParseParts (ids ++ fs) = some (false, ids, fs.tail) := by
  obtain ⟨a, ids2, rfl, ha⟩ : ∃ a t, ids = a :: t ∧ a.isDigit = true := by
    rcases ids with _ | ⟨a, t⟩
    · simp at h1
    · exact ⟨a, t, rfl, hi a (by simp)⟩
  have hfhead : ∀ c, fs.head? = some c → c.isDigit = false := by
    intro c hc
    rcases hf with rfl | ⟨es, rfl, _, _, _⟩
    · simp at hc
    · simp only [List.head?_cons, Option.some.injEq] at hc
      subst hc
      decide
  have htd : takeDigits ((a :: ids2) ++ fs) = (a :: ids2, fs) :=
    takeDigits_complete hi hfhead
  have hsgn : ∀ c, ((a :: ids2) ++ fs).head? = some c → c ≠ '-' ∧ c ≠ '+' := by
    intro c hc
    simp only [List.cons_append, List.head?_cons, Option.some.injEq] at hc
    subst hc
    exact ⟨(digit_ne_special ha).2.2.1, (digit_ne_special ha).2.2.2⟩
  have hdw : ((a :: ids2) ++ fs).dropWhile isJsWS = (a :: ids2) ++ fs := by
    rw [List.cons_append]
    exact dropWhile_not_ws (isJsWS_of_isDigit ha)
  simp only [jsParseParts, hdw, jsParseSign_not hsgn, htd]
  rcases hf with rfl | ⟨es, rfl, hes, he1, he2⟩
  · simp [jsParseFracDigits]
  · have hfd : jsParseFracDigits ('.' :: es) = es := by
      have htd2 : takeDigits (es ++ []) = (es, []) :=
        takeDigits_complete hes (by intro c hc; simp at hc)
      rw [List.append_nil] at htd2
      rw [jsParseFracDigits]
      rw [htd2]
    rw [hfd]
    simp

/-- Every price value produced by the token parser from a currency-pattern
capture is positive and a whole number of hundredths — the PriceToken
invariant of the data model. -/
theorem normalize_capture {l g r : List Char} {v : ℚ}
    (hm : matchAfterR l = some (g, r)) (hn : normalize g = some v) :
    0 < v ∧ ∃ n : ℕ, v = (n : ℚ) / 100 := by
  obtain ⟨w, ds, gs, fs, hw, hd, h1, h3, hgr, hf, rfl, hleq⟩ := matchAfterR_sound hm
  have hscds : stripCommas ds = ds := stripCommas_digits hd
  have hgd : ∀ c ∈ stripCommas gs, c.isDigit = true := stripCommas_groups hgr
  have hscfs : stripCommas fs = fs := by
    rcases hf with rfl | ⟨es, rfl, hes, _, _⟩
    · rfl
    · rw [stripCommas]
      apply List.filter_eq_self.mpr
      intro c hc
      rcases List.mem_cons.mp hc with rfl | hc2
      · decide
      · exact (digit_ne_special (hes c hc2)).1
  have hstrip : stripCommas (ds ++ gs ++ fs) = (ds ++ stripCommas gs) ++ fs := by
    rw [stripCommas, List.filter_append, List.filter_append]
    rw [show List.filter (· != ',') ds = stripCommas ds from rfl,
      show List.filter (· != ',') gs = stripCommas gs from rfl,
      show List.filter (· != ',') fs = stripCommas fs from rfl]
    rw [hscds, hscfs]
  have hids : ∀ c ∈ ds ++ stripCommas gs, c.isDigit = true := by
    intro c hc
    rcases List.mem_append.mp hc with h | h
    · exact hd c h
    · exact hgd c h
  have hids1 : 1 ≤ (ds ++ stripCommas gs).length := by
    simp only [List.length_append]
    omega
  have hpp : jsParseParts (stripCommas (ds ++ gs ++ fs)) =
      some (false, ds ++ stripCommas gs, fs.tail) := by
    rw [hstrip]
    exact jsParseParts_capture hids hids1 hf
  rw [normalize, jsParseFloat, hpp] at hn
  simp only [Option.map_some'] at hn
  split at hn
  · next hpos =>
    simp only [Option.some.injEq] at hn
    subst hn
    refine ⟨hpos, ?_⟩
    set k := fs.tail.length with hk
    have hk2 : k ≤ 2 := by
      rcases hf with rfl | ⟨es, rfl, _, _, h2⟩
      · simp [hk]
      · simpa [hk] using h2
    set A := digitsVal (ds ++ stripCommas gs) with hA
    set B := digitsVal fs.tail with hB
    refine ⟨(A * 10 ^ k + B) * 10 ^ (2 - k), ?_⟩
    have h0 : (10 : ℚ) ^ k ≠ 0 := by positivity
    have hes : (10 : ℚ) ^ (2 - k) * 10 ^ k = 100 := by
      rw [← pow_add]
      have he : 2 - k + k = 2 := by omega
      rw [he]
      norm_num
    have hdiv : (10 : ℚ) ^ (2 - k) = 100 / 10 ^ k := by
      rw [eq_div_iff h0]
      exact hes
    have key : (((A * 10 ^ k + B) * 10 ^ (2 - k) : ℕ) : ℚ) / 100 =
        (A : ℚ) + (B : ℚ) / 10 ^ k := by
      push_cast
      rw [hdiv]
      field_simp
      ring
    rw [key, partsVal]
    rw [if_neg (by simp : ¬ (false = true))]
    rw [one_mul]
  · next hpos => simp at hn

/-- Every capture of the global search comes from a pattern attempt. -/
theorem mem_allMatches_capture {l g : List Char} (h : g ∈ allMatches l) :
    ∃ l2 r, matchAfterR l2 = some (g, r) := by
  rw [allMatches] at h
  suffices h2 : ∀ (fuel : ℕ) (l3 : List Char), g ∈ allMatchesAux fuel l3 →
      ∃ l2 r, matchAfterR l2 = some (g, r) from h2 _ _ h
  intro fuel
  induction fuel with
  | zero =>
    intro l3 h
    simp [allMatchesAux] at h
  | succ n ih =>
    intro l3 h
    rcases l3 with _ | ⟨c, rest⟩
    · simp [allMatchesAux] at h
    · simp only [allMatchesAux] at h
      cases hm : matchPriceAt (c :: rest) with
      | some gr =>
        rcases gr with ⟨g2, r2⟩
        rw [hm] at h
        rcases List.mem_cons.mp h with rfl | h2
        · obtain ⟨rest2, _, hmar⟩ := matchPriceAt_some hm
          exact ⟨rest2, r2, hmar⟩
        · exact ih r2 h2
      | none =>
        rw [hm] at h
        exact ih rest h

/-- The single capture of the first-match search comes from a pattern
attempt. -/
theorem firstMatch_capture {l g : List Char} (h : firstMatch l = some g) :
    ∃ l2 r, matchAfterR l2 = some (g, r) := by
  induction l with
  | nil => simp [firstMatch] at h
  | cons c rest ih =>
    rw [firstMatch] at h
    cases hm : matchPriceAt (c :: rest) with
    | some gr =>
      rcases gr with ⟨g2, r2⟩
      rw [hm] at h
      simp only [Option.some.injEq] at h
      subst h
      obtain ⟨rest2, _, hmar⟩ := matchPriceAt_some hm
      exact ⟨rest2, r2, hmar⟩
    | none =>
      rw [hm] at h
      exact ih h

/-- Every value yielded by any of the three extraction strategies satisfies
the PriceToken invariant: positive and a whole number of hundredths. -/
theorem strategies_invariant :
    (∀ texts, ∀ v ∈ getPricesFromElements texts, 0 < v ∧ ∃ n : ℕ, v = (n : ℚ) / 100) ∧
    (∀ s, ∀ v ∈ pricesFromHTML s, 0 < v ∧ ∃ n : ℕ, v = (n : ℚ) / 100) ∧
    (∀ s, ∀ v ∈ pricesFromOCR s, 0 < v ∧ ∃ n : ℕ, v = (n : ℚ) / 100) := by
  have hhtml : ∀ s, ∀ v ∈ pricesFromHTML s, 0 < v ∧ ∃ n : ℕ, v = (n : ℚ) / 100 := by
    intro s v hv
    rw [pricesFromHTML] at hv
    obtain ⟨g, hg, hn⟩ := List.mem_filterMap.mp hv
    obtain ⟨l2, r, hmar⟩ := mem_allMatches_capture hg
    exact normalize_capture hmar hn
  refine ⟨?_, hhtml, ?_⟩
  · intro texts v hv
    rw [getPricesFromElements] at hv
    obtain ⟨t, _, hb⟩ := List.mem_filterMap.mp hv
    obtain ⟨g, hg, hn⟩ := Option.bind_eq_some.mp hb
    obtain ⟨l2, r, hmar⟩ := firstMatch_capture hg
    exact normalize_capture hmar hn
  · intro s v hv
    rw [ocr_eq_html] at hv
    exact hhtml s v hv

/-- Every value adopted by the strategy cascade satisfies the PriceToken
invariant of the data model — positive, at most two fractional digits — so
the hypothesis of the statistics ordering theorem holds for every sequence
the program ever feeds to the statistics function. -/
theorem runPipeline_values_invariant (texts : List String) (html ocr : String) :
    ∀ v ∈ (runPipeline texts html ocr).values, 0 < v ∧ ∃ n : ℕ, v = (n : ℚ) / 100 := by
  intro v hv
  obtain ⟨hdom, hhtml, hocr⟩ := strategies_invariant
  by_cases h1 : (getPricesFromElements texts).length < priceThreshold
  · by_cases h2 : (pricesFromHTML html).length > (getPricesFromElements texts).length
    · simp only [runPipeline, if_pos h1, if_pos h2] at hv
      split at hv
      · split at hv
        · exact hocr ocr v hv
        · exact hhtml html v hv
      · exact hhtml html v hv
    · simp only [runPipeline, if_pos h1, if_neg h2, if_pos h1] at hv
      split at hv
      · exact hocr ocr v hv
      · exact hdom texts v hv
  · simp only [runPipeline, if_neg h1] at hv
    exact hdom texts v hv

/-- A successful pattern match consumes at least one character of the
scanned text. -/
theorem matchPriceAt_length {l g r : List Char} (h : matchPriceAt l = some (g, r)) :
    r.length < l.length := by
  obtain ⟨rest, rfl, hm⟩ := matchPriceAt_some h
  obtain ⟨w, ds, gs, fs, _, _, h1, _, _, _, _, hleq⟩ := matchAfterR_sound hm
  rw [List.length_cons, hleq]
  simp only [List.length_append]
  omega

/-- The fuel of the global-search worker is irrelevant once it covers the
text length, so the worker computes the unbounded left-to-right scan of the
source: each match consumes at least one character, hence fuel equal to the
text length never runs out. -/
theorem allMatchesAux_fuel : ∀ (fuel fuel2 : ℕ) (l : List Char),
    l.length ≤ fuel → l.length ≤ fuel2 → allMatchesAux fuel l = allMatchesAux fuel2 l := by
  intro fuel
  induction fuel with
  | zero =>
    intro fuel2 l h1 h2
    have hl : l = [] := List.length_eq_zero.mp (by omega)
    subst hl
    cases fuel2 <;> rfl
  | succ n ih =>
    intro fuel2 l h1 h2
    rcases l with _ | ⟨c, rest⟩
    · cases fuel2 <;> rfl
    · rcases fuel2 with _ | m
      · simp at h2
      · simp only [allMatchesAux]
        cases hm : matchPriceAt (c :: rest) with
        | some gr =>
          rcases gr with ⟨g, r2⟩
          have hlen := matchPriceAt_length hm
          simp only [List.length_cons] at h1 h2 hlen
          dsimp only
          rw [ih m r2 (by omega) (by omega)]
        | none =>
          simp only [List.length_cons] at h1 h2
          dsimp only
          exact ih m rest (by omega) (by omega)

end EasyTrade
